import Mathlib

/-!
Shallow embedding of the mcshader language server
(`src/server/src/server.ts`, comprising the server wiring and the `Config`
class of `config.ts`), together with a model of the Node.js `path` module
functions used by the `Config` constructor (`basename`, `join`,
`normalize`) and of the JavaScript array indexing used by the
completion-resolve handler.  Paths are modelled as character lists
(`String.data`); machine behaviour such as an out-of-bounds array read
returning `undefined` is modelled with `Option`.
-/

namespace Mcshader

/-- Whether a character list starts with a slash ('path[0] === "/"'). -/
def headIsSlash : List Char → Bool
  | [] => false
  | c :: _ => c == '/'

/-- Whether a character list ends with a slash (Node checks the last char code). -/
def lastIsSlash (l : List Char) : Bool := headIsSlash l.reverse

/-- Split a character list on slashes, keeping empty segments
(the semantics of JavaScript 'path.split("/")', which Node's
normalization loop follows segment by segment). -/
def splitSlash : List Char → List (List Char)
  | [] => [[]]
  | c :: cs =>
    if c = '/' then [] :: splitSlash cs
    else
      match splitSlash cs with
      | [] => [[c]]
      | s :: ss => (c :: s) :: ss

/-- Rejoin segments with slashes (JavaScript 'segments.join("/")'). -/
def joinSegs : List (List Char) → List Char
  | [] => []
  | [s] => s
  | s :: t :: rest => s ++ '/' :: joinSegs (t :: rest)

/-- One step of Node's 'normalizeString': push a segment onto the resolved
stack, skipping empty and dot segments and resolving dot-dot against the
stack ('allowAboveRoot' keeps leading dot-dot segments of relative paths). -/
def pushSeg (allowAboveRoot : Bool) (stack : List (List Char)) (s : List Char) : List (List Char) :=
  if s = [] ∨ s = ['.'] then stack
  else if s = ['.', '.'] then
    match stack.getLast? with
    | some t => if t = ['.', '.'] then (if allowAboveRoot then stack ++ [s] else stack) else stack.dropLast
    | none => if allowAboveRoot then [s] else []
  else stack ++ [s]

/-- Node's 'normalizeString': resolve dot and dot-dot segments and drop
empty segments, left to right. -/
def normSegs (allowAboveRoot : Bool) (segs : List (List Char)) : List (List Char) :=
  segs.foldl (pushSeg allowAboveRoot) []

/-- Node 'path.posix.normalize' on character lists. -/
def normalizeL (l : List Char) : List Char :=
  if l = [] then ['.']
  else
    let core := joinSegs (normSegs (!headIsSlash l) (splitSlash l))
    if core = [] then
      if headIsSlash l then ['/']
      else if lastIsSlash l then ['.', '/']
      else ['.']
    else
      (if headIsSlash l then '/' :: core else core) ++ (if lastIsSlash l then ['/'] else [])

/-- Node 'path.posix.join' for two arguments, on character lists: concatenate
the nonempty parts with a slash and normalize; the join of two empty
parts is the dot path. -/
def pathJoinL (a b : List Char) : List Char :=
  let joined := if a = [] then b else if b = [] then a else a ++ '/' :: b
  if joined = [] then ['.'] else normalizeL joined

/-- Node 'path.posix.join' for two arguments, on strings. -/
def pathJoin (a b : String) : String := String.mk (pathJoinL a.data b.data)

/-- Node variadic 'path.posix.join' on character lists: concatenate the
nonempty parts with slashes and normalize; dot if every part is empty. -/
def pathJoinListL (parts : List (List Char)) : List Char :=
  let ne := parts.filter (fun p => !p.isEmpty)
  if ne = [] then ['.'] else normalizeL (joinSegs ne)

/-- Node variadic 'path.posix.join' on strings. -/
def pathJoinList (parts : List String) : String :=
  String.mk (pathJoinListL (parts.map String.data))

/-- Node 'path.posix.basename' (no extension argument): drop trailing
slashes, then take the maximal slash-free suffix of what remains. -/
def basenameL (l : List Char) : List Char :=
  ((l.reverse.dropWhile (fun c => c == '/')).takeWhile (fun c => c != '/')).reverse

/-- Node 'path.posix.basename' on strings. -/
def basename (p : String) : String := String.mk (basenameL p.data)

/-- The maximal slash-free suffix of a character list (the tail of its last
slash-separated segment); used to describe how appending a character
extends the last segment. -/
def trailingRun (l : List Char) : List Char :=
  (l.reverse.takeWhile (fun c => c != '/')).reverse

/-- Modelled from the spec: "the root's final path segment" — the last
nonempty slash-separated segment of a path, if any. -/
def finalSegment (p : String) : Option String :=
  (((splitSlash p.data).filter (fun s => !s.isEmpty)).getLast?).map (fun s => String.mk s)

/-- A single well-formed path segment: nonempty, not a dot or dot-dot
segment, and slash-free. -/
def PlainSegL (s : List Char) : Prop :=
  s ≠ [] ∧ s ≠ ['.'] ∧ s ≠ ['.', '.'] ∧ ∀ c ∈ s, c ≠ '/'

/-- A well-formed absolute path without trailing slash: a leading slash
followed by plain segments joined by slashes. -/
def CleanAbs (p : String) : Prop :=
  ∃ segs : List (List Char), segs ≠ [] ∧ (∀ s ∈ segs, PlainSegL s) ∧
    p.data = '/' :: joinSegs segs

/-- A well-formed workspace name: a single plain path segment. -/
def PlainName (s : String) : Prop := PlainSegL s.data

instance decPlainSegL (s : List Char) : Decidable (PlainSegL s) :=
  inferInstanceAs (Decidable (s ≠ [] ∧ s ≠ ['.'] ∧ s ≠ ['.', '.'] ∧ ∀ c ∈ s, c ≠ '/'))

instance decPlainName (s : String) : Decidable (PlainName s) :=
  inferInstanceAs (Decidable (PlainSegL s.data))

/-- Minimal model of a compiled JavaScript regular expression: only its
source pattern matters to the claims below. -/
structure RegExp where
  pattern : String
deriving DecidableEq

/-- Modelled from the spec: the Linux-flavoured validator-output pattern
'regLinuxOutput' exported by the linter module, which is not under
'src/'; only its identity matters to the claims below. -/
def regLinuxOutput : RegExp := RegExp.mk ("ERROR: ([^:]*):([0-9]+): (.*)")

/-- The host-environment values the 'Config' constructor reads: the two
'mcglsl' configuration keys, 'os.platform()', 'os.tmpdir()',
'vscode.workspace.name' and 'vscode.workspace.rootPath'. -/
structure HostEnv where
  glslangValidatorPath : String
  minecraftPath : String
  platform : String
  tmpRoot : String
  workspaceName : String
  rootPath : String
deriving DecidableEq

/-- The 'Config' class of 'config.ts'. -/
structure Config where
  minecraftPath : String
  glslangPath : String
  workDir : String
  tmpdir : String
  isWin : Bool
  outputMatch : RegExp
deriving DecidableEq

/-- The 'Config' constructor: reads the 'mcglsl' settings, computes the
platform flag, stages directory 'join(tmpdir, workspaceName, "shaders")',
fixes the output pattern to 'regLinuxOutput', and derives the working
directory from 'workspace.rootPath' ('rootPath' as-is when its basename
is 'shaders', else 'join(rootPath, "shaders")'). -/
def mkConfig (env : HostEnv) : Config :=
  { glslangPath := env.glslangValidatorPath
    minecraftPath := env.minecraftPath
    isWin := env.platform == "win32"
    tmpdir := pathJoinList [env.tmpRoot, env.workspaceName, "shaders"]
    outputMatch := regLinuxOutput
    workDir :=
      if basename env.rootPath = "shaders" then env.rootPath
      else pathJoin env.rootPath ("shaders") }

/-- A configuration-change notification, observed only through its
'affectsConfiguration' method. -/
structure ConfigurationChangeEvent where
  affects : String → Bool

/-- 'Config.onChange': when the change affects the 'mcglsl' namespace,
replace every field with those of a freshly constructed 'Config'
('Object.assign(this, new Config())'); otherwise leave the value alone.
The host state the fresh constructor reads is passed explicitly. -/
def Config.onChange (cfg : Config) (e : ConfigurationChangeEvent) (env : HostEnv) : Config :=
  if e.affects ("mcglsl") then mkConfig env else cfg

/-- A completion item: the handler only ever reads 'data', but the other
fields are carried to state independence properties. -/
structure CompletionItem where
  label : String
  detail : String
  data : Int
deriving DecidableEq

/-- JavaScript array indexing 'xs[i]': the element inside bounds, the
'undefined' value (here 'none') outside. -/
def jsGet {α : Type} (l : List α) (i : Int) : Option α :=
  if h : 0 ≤ i ∧ i.toNat < l.length then some (l.get ⟨i.toNat, h.2⟩) else none

/-- The 'connection.onCompletionResolve' handler body:
'completions[item.data - 1]'. -/
def onCompletionResolve (completions : List CompletionItem) (item : CompletionItem) :
    Option CompletionItem :=
  jsGet completions (item.data - 1)

/-- The observable outcome of a resolve request: a candidate item, the
JavaScript 'undefined' value returned from an out-of-bounds read, or a
distinguished not-found failure (which the spec asks for out of range). -/
inductive ResolveOutcome where
  | candidate (c : CompletionItem)
  | undefinedValue
  | notFoundError
deriving DecidableEq

/-- The outcome the handler actually produces: it never fails, it returns
whatever the array read yields. -/
def resolveOutcome (completions : List CompletionItem) (item : CompletionItem) : ResolveOutcome :=
  match onCompletionResolve completions item with
  | some c => ResolveOutcome.candidate c
  | none => ResolveOutcome.undefinedValue

/-- Modelled from the spec: resolution should return the candidate at
position 'id - 1' for 'id' in '[1, N]' and otherwise "fail with a
not-found result". -/
def specResolve (completions : List CompletionItem) (id : Int) : ResolveOutcome :=
  if h : 1 ≤ id ∧ id ≤ (completions.length : Int) then
    ResolveOutcome.candidate (completions.get ⟨(id - 1).toNat, by omega⟩)
  else ResolveOutcome.notFoundError

/-- A document snapshot owned by the host synchronization layer. -/
structure TextDocument where
  uri : String
  text : String
deriving DecidableEq

/-- A position-in-document request parameter. -/
structure TextDocumentPositionParams where
  uri : String
  line : Nat
  character : Nat
deriving DecidableEq

/-- The interesting part of the host's initialize-request parameters. -/
structure InitializeParams where
  rootUri : Option String
deriving DecidableEq

/-- Text-document synchronization kinds of the protocol. -/
inductive TextDocumentSyncKind where
  | none
  | full
  | incremental
deriving DecidableEq

/-- Completion-capability options. -/
structure CompletionOptions where
  resolveProvider : Bool
deriving DecidableEq

/-- The capabilities the server declares. -/
structure ServerCapabilities where
  textDocumentSync : TextDocumentSyncKind
  completionProvider : CompletionOptions
deriving DecidableEq

/-- The initialize-request response. -/
structure InitializeResult where
  capabilities : ServerCapabilities
deriving DecidableEq

/-- The 'vscode-languageserver' 'TextDocuments.syncKind' constant that the
handler reads ('documents.syncKind'): the library synchronizes whole
documents, so it reports full synchronization. -/
def documentsSyncKind : TextDocumentSyncKind := TextDocumentSyncKind.full

/-- The 'connection.onInitialize' handler. -/
def onInitialize (_params : InitializeParams) : InitializeResult :=
  { capabilities :=
      { textDocumentSync := documentsSyncKind
        completionProvider := { resolveProvider := true } } }

/-- The server's mutable state: the single 'Config' instance and the set of
open documents maintained by the synchronization layer. -/
structure ServerState where
  conf : Config
  openDocs : List TextDocument

/-- The host-issued messages the server reacts to. -/
inductive ServerMsg where
  | initializeMsg (params : InitializeParams)
  | didChangeContent (doc : TextDocument)
  | didChangeConfiguration (change : ConfigurationChangeEvent) (env : HostEnv)
  | completion (params : TextDocumentPositionParams)
  | completionResolve (item : CompletionItem)

/-- The externally observable calls a handler makes, in order. -/
inductive Action where
  | preprocess (doc : TextDocument)
  | configOnChange (change : ConfigurationChangeEvent)
  | respondInit (result : InitializeResult)
  | respondCompletions (items : List CompletionItem)
  | respondResolve (value : Option CompletionItem)

/-- Whether an action is a 'Linter.preprocess' invocation. -/
def isPreprocess : Action → Bool
  | Action.preprocess _ => true
  | _ => false

/-- The server's single-threaded event dispatch, one handler per message,
exactly as wired in 'server.ts': content change runs 'preprocess' on the
changed document; configuration change runs 'conf.onChange' and then
'preprocess' on every open document; completion returns the static list;
resolve indexes it. -/
def dispatch (completions : List CompletionItem) (st : ServerState) :
    ServerMsg → ServerState × List Action
  | ServerMsg.initializeMsg p => (st, [Action.respondInit (onInitialize p)])
  | ServerMsg.didChangeContent doc => (st, [Action.preprocess doc])
  | ServerMsg.didChangeConfiguration ch env =>
      ({ st with conf := Config.onChange st.conf ch env },
        Action.configOnChange ch :: st.openDocs.map Action.preprocess)
  | ServerMsg.completion _ => (st, [Action.respondCompletions completions])
  | ServerMsg.completionResolve item =>
      (st, [Action.respondResolve (onCompletionResolve completions item)])

/-- Concrete host environment whose project root already ends in a
'shaders' segment. -/
def envC2a : HostEnv := ⟨"glslangValidator", "/mc", "linux", "/tmp", "pack", "/proj/shaders"⟩

/-- Concrete host environment whose project root does not end in a
'shaders' segment. -/
def envC2b : HostEnv := ⟨"glslangValidator", "/mc", "linux", "/tmp", "pack", "/proj"⟩

/-- Concrete host environment reporting the Windows platform. -/
def envC3win : HostEnv := ⟨"glslangValidator.exe", "/mc", "win32", "/tmp", "pack", "/proj"⟩

/-- The same host environment on a non-Windows platform. -/
def envC3linux : HostEnv := ⟨"glslangValidator", "/mc", "linux", "/tmp", "pack", "/proj"⟩

/-- Concrete host environment for the old configuration generation. -/
def envC4a : HostEnv := ⟨"g1", "/mc1", "linux", "/tmpA", "w1", "/proj1"⟩

/-- Concrete host environment for the new configuration generation. -/
def envC4b : HostEnv := ⟨"g2", "/mc2", "win32", "/tmpB", "w2", "/proj2"⟩

/-- A second concrete old-generation host environment. -/
def envC4c : HostEnv := ⟨"g3", "/mc3", "linux", "/tmpC", "w3", "/proj3"⟩

/-- A change event that affects the 'mcglsl' namespace. -/
def evC4 : ConfigurationChangeEvent := ⟨fun s => s == "mcglsl"⟩

/-- Concrete host environment for the no-op witness. -/
def envC5 : HostEnv := ⟨"g", "/mc", "linux", "/tmp", "w", "/proj"⟩

/-- A change event that affects no namespace at all. -/
def evC5 : ConfigurationChangeEvent := ⟨fun _ => false⟩

/-- Concrete host environment with a clean temp root and workspace name. -/
def envC6 : HostEnv := ⟨"glslangValidator", "/mc", "linux", "/tmp", "pack", "/proj"⟩

/-- A concrete server state with no open documents. -/
def stC10a : ServerState := ⟨mkConfig envC5, []⟩

/-- A distinct concrete server state with an open document, as left by a
different history of prior requests. -/
def stC10b : ServerState := ⟨mkConfig envC4b, [⟨"file:///a/shaders/f.fsh", "void main"⟩]⟩

theorem splitSlash_ne_nil (l : List Char) : splitSlash l ≠ [] := by
  induction l with
  | nil => simp [splitSlash]
  | cons c cs ih =>
    by_cases hc : c = '/'
    · simp [splitSlash, hc]
    · simp only [splitSlash, if_neg hc]
      cases h : splitSlash cs with
      | nil => exact absurd h ih
      | cons s ss => simp

theorem splitSlash_cons (c : Char) (cs : List Char) :
    splitSlash (c :: cs) =
      if c = '/' then [] :: splitSlash cs
      else
        match splitSlash cs with
        | [] => [[c]]
        | s :: ss => (c :: s) :: ss := by
  rw [splitSlash]

theorem splitSlash_append_slash (l : List Char) :
    splitSlash (l ++ ['/']) = splitSlash l ++ [[]] := by
  induction l with
  | nil => rfl
  | cons c cs ih =>
    rcases h : splitSlash cs with _ | ⟨s, ss⟩
    · exact absurd h (splitSlash_ne_nil cs)
    · by_cases hc : c = '/'
      · simp [List.cons_append, splitSlash_cons, hc, ih]
      · simp [List.cons_append, splitSlash_cons, hc, ih, h]

theorem splitSlash_append_char (l : List Char) (c : Char) (hc : ¬c = '/') :
    ∀ ss s, splitSlash l = ss ++ [s] → splitSlash (l ++ [c]) = ss ++ [s ++ [c]] := by
  induction l with
  | nil =>
    intro ss s h
    rw [show splitSlash ([] : List Char) = [[]] from rfl] at h
    have hss : ss = [] := by
      cases ss with
      | nil => rfl
      | cons x xs =>
        have := congrArg List.length h
        simp at this
    subst hss
    have hs : s = ([] : List Char) := by simpa using h
    subst hs
    simp [splitSlash_cons, hc, splitSlash]
  | cons d ds ih =>
    intro ss s h
    by_cases hd : d = '/'
    · rw [splitSlash_cons, if_pos hd] at h
      cases ss with
      | nil =>
        have : splitSlash ds = [] := by simpa using congrArg List.tail h
        exact absurd this (splitSlash_ne_nil ds)
      | cons x xs =>
        have hx : x = [] := by simpa using (congrArg List.head? h)
        have hds : splitSlash ds = xs ++ [s] := by simpa using congrArg List.tail h
        have := ih xs s hds
        subst hx
        simp [List.cons_append, splitSlash_cons, hd, this]
    · rcases h2 : splitSlash ds with _ | ⟨s0, ss0⟩
      · exact absurd h2 (splitSlash_ne_nil ds)
      · rw [splitSlash_cons, if_neg hd, h2] at h
        cases ss with
        | nil =>
          have hs1 : s = d :: s0 := by simpa using (congrArg List.head? h).symm
          have hs2 : ss0 = [] := by simpa using congrArg List.tail h
          subst hs2
          have h3 := ih [] s0 (by simpa using h2)
          subst hs1
          simp [List.cons_append, splitSlash_cons, hd, h3]
        | cons x xs =>
          have hx : x = d :: s0 := by simpa using (congrArg List.head? h).symm
          have hss0 : ss0 = xs ++ [s] := by simpa using congrArg List.tail h
          have hds : splitSlash ds = (s0 :: xs) ++ [s] := by rw [h2, hss0]; rfl
          have h3 := ih (s0 :: xs) s hds
          subst hx
          simp only [List.cons_append, splitSlash_cons, if_neg hd, h3]

theorem trailingRun_append_slash (l : List Char) : trailingRun (l ++ ['/']) = [] := by
  simp [trailingRun]

theorem trailingRun_append_char (l : List Char) (c : Char) (hc : ¬c = '/') :
    trailingRun (l ++ [c]) = trailingRun l ++ [c] := by
  have hb : (c != '/') = true := by simpa [bne_iff_ne] using hc
  simp [trailingRun, List.takeWhile_cons, hb]

theorem splitSlash_getLast (l : List Char) : ∃ ss, splitSlash l = ss ++ [trailingRun l] := by
  induction l using List.reverseRecOn with
  | nil => exact ⟨[], rfl⟩
  | append_singleton l c ih =>
    obtain ⟨ss, hss⟩ := ih
    by_cases hc : c = '/'
    · subst hc
      exact ⟨splitSlash l, by rw [splitSlash_append_slash, trailingRun_append_slash]⟩
    · exact ⟨ss, by rw [splitSlash_append_char l c hc ss (trailingRun l) hss,
        trailingRun_append_char l c hc]⟩

theorem basenameL_append_slash (l : List Char) : basenameL (l ++ ['/']) = basenameL l := by
  simp [basenameL]

theorem basenameL_append_char (l : List Char) (c : Char) (hc : ¬c = '/') :
    basenameL (l ++ [c]) = trailingRun l ++ [c] := by
  have hb : (c != '/') = true := by simpa [bne_iff_ne] using hc
  have hb2 : ¬((c == '/') = true) := by simpa using hc
  simp [basenameL, trailingRun, List.dropWhile_cons, List.takeWhile_cons, hb, hb2]

theorem getLast_filter_splitSlash (l : List Char) :
    ((splitSlash l).filter (fun s => !s.isEmpty)).getLast? =
      (if basenameL l = [] then none else some (basenameL l)) := by
  induction l using List.reverseRecOn with
  | nil => rfl
  | append_singleton l c ih =>
    by_cases hc : c = '/'
    · subst hc
      rw [splitSlash_append_slash, List.filter_append, basenameL_append_slash]
      simpa using ih
    · obtain ⟨ss, hss⟩ := splitSlash_getLast l
      rw [splitSlash_append_char l c hc ss (trailingRun l) hss, List.filter_append,
        basenameL_append_char l c hc]
      have hne : (trailingRun l ++ [c]) ≠ [] := by simp
      have hie : (trailingRun l ++ [c]).isEmpty = false := by
        cases h' : trailingRun l ++ [c] with
        | nil => exact absurd h' hne
        | cons a b => rfl
      have hfe : (List.filter (fun s => !s.isEmpty) [trailingRun l ++ [c]]) =
          [trailingRun l ++ [c]] := by
        simp [List.filter, hie]
      rw [hfe, List.getLast?_concat, if_neg hne]

theorem data_append (a b : String) : (a ++ b).data = a.data ++ b.data := rfl

theorem not_isEmpty_of_ne_nil {l : List Char} (h : l ≠ []) : (!l.isEmpty) = true := by
  cases l with
  | nil => exact absurd rfl h
  | cons c cs => rfl

theorem pushSeg_plain (a : Bool) (st : List (List Char)) (s : List Char) (hs : PlainSegL s) :
    pushSeg a st s = st ++ [s] := by
  obtain ⟨h1, h2, h3, _⟩ := hs
  simp [pushSeg, h1, h2, h3]

theorem foldl_pushSeg_plain (a : Bool) (segs : List (List Char))
    (h : ∀ s ∈ segs, PlainSegL s) :
    ∀ st, List.foldl (pushSeg a) st segs = st ++ segs := by
  induction segs with
  | nil => intro st; simp
  | cons s rest ih =>
    intro st
    rw [List.foldl_cons, pushSeg_plain a st s (h s (by simp)),
      ih (fun t ht => h t (by simp [ht])) (st ++ [s])]
    simp

theorem splitSlash_noSlash (s : List Char) (h : ∀ c ∈ s, c ≠ '/') : splitSlash s = [s] := by
  induction s with
  | nil => rfl
  | cons c cs ih =>
    have hc : c ≠ '/' := h c (by simp)
    rw [splitSlash_cons, if_neg hc, ih (fun d hd => h d (by simp [hd]))]

theorem splitSlash_append_noSlash (s : List Char) (hs : ∀ c ∈ s, c ≠ '/') (l : List Char)
    (h0 : List Char) (rest : List (List Char)) (hl : splitSlash l = h0 :: rest) :
    splitSlash (s ++ l) = (s ++ h0) :: rest := by
  induction s with
  | nil => simpa using hl
  | cons c cs ih =>
    have hc : c ≠ '/' := hs c (by simp)
    rw [List.cons_append, splitSlash_cons, if_neg hc,
      ih (fun d hd => hs d (by simp [hd]))]
    rfl

theorem joinSegs_ne_nil (s : List Char) (rest : List (List Char)) (hs : s ≠ []) :
    joinSegs (s :: rest) ≠ [] := by
  cases rest with
  | nil => simpa [joinSegs] using hs
  | cons t r2 => simp [joinSegs]

theorem joinSegs_append (xs ys : List (List Char)) (hx : xs ≠ []) (hy : ys ≠ []) :
    joinSegs (xs ++ ys) = joinSegs xs ++ '/' :: joinSegs ys := by
  induction xs with
  | nil => exact absurd rfl hx
  | cons s rest ih =>
    cases rest with
    | nil =>
      cases ys with
      | nil => exact absurd rfl hy
      | cons y yr => simp [joinSegs]
    | cons t r2 =>
      have h := ih (by simp)
      have e2 : joinSegs ((s :: t :: r2) ++ ys) = s ++ '/' :: joinSegs ((t :: r2) ++ ys) := rfl
      have e3 : joinSegs (s :: t :: r2) = s ++ '/' :: joinSegs (t :: r2) := rfl
      rw [e2, h, e3]
      simp [List.append_assoc]

theorem splitSlash_joinSegs (segs : List (List Char)) (hne : segs ≠ [])
    (h : ∀ s ∈ segs, ∀ c ∈ s, c ≠ '/') : splitSlash (joinSegs segs) = segs := by
  induction segs with
  | nil => exact absurd rfl hne
  | cons s rest ih =>
    cases rest with
    | nil => exact splitSlash_noSlash s (h s (by simp))
    | cons t rest2 =>
      have hrec : splitSlash (joinSegs (t :: rest2)) = t :: rest2 :=
        ih (by simp) (fun u hu c hc => h u (by simp [hu]) c hc)
      have h2 : splitSlash ('/' :: joinSegs (t :: rest2)) = [] :: t :: rest2 := by
        rw [splitSlash_cons, if_pos rfl, hrec]
      have hj : joinSegs (s :: t :: rest2) = s ++ '/' :: joinSegs (t :: rest2) := rfl
      rw [hj, splitSlash_append_noSlash s (h s (by simp)) _ _ _ h2]
      simp

theorem headIsSlash_append (a b : List Char) (ha : a ≠ []) :
    headIsSlash (a ++ b) = headIsSlash a := by
  cases a with
  | nil => exact absurd rfl ha
  | cons c cs => rfl

theorem headIsSlash_reverse_noSlash (y : List Char) (h : ∀ c ∈ y, c ≠ '/') :
    headIsSlash y.reverse = false := by
  cases hy : y.reverse with
  | nil => rfl
  | cons c cs =>
    have hc : c ∈ y := by
      have : c ∈ y.reverse := by simp [hy]
      simpa using this
    have : (c == '/') = false := by simpa [beq_eq_false_iff_ne] using h c hc
    simp [headIsSlash, this]

theorem lastIsSlash_append (a y : List Char) (hy : y ≠ []) :
    lastIsSlash (a ++ y) = lastIsSlash y := by
  unfold lastIsSlash
  rw [List.reverse_append]
  exact headIsSlash_append y.reverse a.reverse (by simpa using hy)

theorem lastIsSlash_plain (y : List Char) (hy : ∀ c ∈ y, c ≠ '/') :
    lastIsSlash y = false :=
  headIsSlash_reverse_noSlash y hy

theorem lastIsSlash_joinSegs (segs : List (List Char)) (hne : segs ≠ [])
    (h : ∀ s ∈ segs, PlainSegL s) : lastIsSlash (joinSegs segs) = false := by
  rcases List.eq_nil_or_concat segs with h0 | ⟨xs, y, hseg⟩
  · exact absurd h0 hne
  · rw [List.concat_eq_append] at hseg
    subst hseg
    have hy := h y (by simp)
    cases xs with
    | nil =>
      simpa [joinSegs] using lastIsSlash_plain y hy.2.2.2
    | cons x xr =>
      rw [joinSegs_append (x :: xr) [y] (by simp) (by simp),
        show (joinSegs (x :: xr) ++ '/' :: joinSegs [y]) =
          (joinSegs (x :: xr) ++ ['/']) ++ joinSegs [y] by simp,
        lastIsSlash_append _ _ (by simpa [joinSegs] using hy.1)]
      simpa [joinSegs] using lastIsSlash_plain y hy.2.2.2

theorem normalizeL_cleanAbs (segs : List (List Char)) (hne : segs ≠ [])
    (h : ∀ s ∈ segs, PlainSegL s) :
    normalizeL ('/' :: joinSegs segs) = '/' :: joinSegs segs := by
  have hnoslash : ∀ s ∈ segs, ∀ c ∈ s, c ≠ '/' := fun s hs => (h s hs).2.2.2
  obtain ⟨s0, rest, rfl⟩ : ∃ s0 rest, segs = s0 :: rest := by
    cases segs with
    | nil => exact absurd rfl hne
    | cons a b => exact ⟨a, b, rfl⟩
  have hJne : joinSegs (s0 :: rest) ≠ [] := joinSegs_ne_nil s0 rest (h s0 (by simp)).1
  have hl_ne : ¬('/' :: joinSegs (s0 :: rest)) = [] := by simp
  have hhead : headIsSlash ('/' :: joinSegs (s0 :: rest)) = true := rfl
  have hlast : lastIsSlash ('/' :: joinSegs (s0 :: rest)) = false := by
    rw [show ('/' :: joinSegs (s0 :: rest)) = ['/'] ++ joinSegs (s0 :: rest) from rfl,
      lastIsSlash_append ['/'] _ hJne]
    exact lastIsSlash_joinSegs _ (by simp) h
  have hsplit : splitSlash ('/' :: joinSegs (s0 :: rest)) = [] :: s0 :: rest := by
    rw [splitSlash_cons, if_pos rfl, splitSlash_joinSegs _ (by simp) hnoslash]
  have hnorm : normSegs false (splitSlash ('/' :: joinSegs (s0 :: rest))) = s0 :: rest := by
    rw [hsplit]
    show List.foldl (pushSeg false) [] ([] :: s0 :: rest) = s0 :: rest
    rw [List.foldl_cons, show pushSeg false [] [] = [] from rfl,
      foldl_pushSeg_plain false (s0 :: rest) h []]
    simp
  unfold normalizeL
  rw [if_neg hl_ne]
  simp only [hhead, hlast, Bool.not_true, hnorm]
  rw [if_neg hJne]
  simp

theorem pathJoinL_cleanAbs (segs : List (List Char)) (hne : segs ≠ [])
    (h : ∀ s ∈ segs, PlainSegL s) (w : List Char) (hw : PlainSegL w) :
    pathJoinL ('/' :: joinSegs segs) w = '/' :: joinSegs (segs ++ [w]) := by
  have h1 : ¬('/' :: joinSegs segs) = [] := by simp
  have h2 : ¬w = [] := hw.1
  have hall : ∀ s ∈ segs ++ [w], PlainSegL s := by
    intro s hs
    rcases List.mem_append.mp hs with h' | h'
    · exact h s h'
    · simpa using (by simpa using h' : s = w) ▸ hw
  have hj : ('/' :: joinSegs segs) ++ '/' :: w = '/' :: joinSegs (segs ++ [w]) := by
    rw [joinSegs_append segs [w] hne (by simp)]
    simp [joinSegs]
  unfold pathJoinL
  rw [if_neg h1, if_neg h2]
  rw [hj]
  have hne2 : ¬('/' :: joinSegs (segs ++ [w])) = [] := by simp
  rw [if_neg hne2]
  exact normalizeL_cleanAbs (segs ++ [w]) (by simp) hall

theorem string_eq_of_data (a b : String) (h : a.data = b.data) : a = b := by
  cases a
  cases b
  cases h
  rfl

theorem finalSegment_eq_shaders_iff (p : String) :
    finalSegment p = some ("shaders") ↔ basename p = "shaders" := by
  unfold finalSegment basename
  rw [getLast_filter_splitSlash]
  by_cases h : basenameL p.data = []
  · rw [if_pos h, h]
    constructor
    · intro hx; simp at hx
    · intro hx; exact absurd hx (by decide)
  · rw [if_neg h]
    simp

theorem countP_isPreprocess_map (docs : List TextDocument) :
    List.countP isPreprocess (docs.map Action.preprocess) = docs.length := by
  induction docs with
  | nil => rfl
  | cons d ds ih => simp [List.countP_cons, isPreprocess, ih]

/-- C1 (amended): for every id in range the resolve handler returns the
candidate at position 'id - 1', and the same candidate on every call with
the same 'data'; for id 0 or N + 1 it performs a safe out-of-bounds array
read and returns the JavaScript 'undefined' value, not a not-found
failure. -/
theorem mcC1 (completions : List CompletionItem) (item : CompletionItem) :
    (∀ _h1 : 1 ≤ item.data, ∀ h2 : (item.data - 1).toNat < completions.length,
        resolveOutcome completions item =
          ResolveOutcome.candidate (completions.get ⟨(item.data - 1).toNat, h2⟩)) ∧
    (∀ other : CompletionItem, other.data = item.data →
        resolveOutcome completions other = resolveOutcome completions item) ∧
    ((item.data = 0 ∨ item.data = (completions.length : Int) + 1) →
        resolveOutcome completions item = ResolveOutcome.undefinedValue) := by
  refine ⟨?_, ?_, ?_⟩
  · intro h1 h2
    unfold resolveOutcome onCompletionResolve jsGet
    rw [dif_pos ⟨by omega, h2⟩]
  · intro other hdata
    unfold resolveOutcome onCompletionResolve
    rw [hdata]
  · intro hcase
    have hnot : ¬(0 ≤ item.data - 1 ∧ (item.data - 1).toNat < completions.length) := by
      rcases hcase with h0 | hN <;> omega
    unfold resolveOutcome onCompletionResolve jsGet
    rw [dif_neg hnot]

/-- Witness for C1: on the concrete two-element list, id 2 resolves to the
second candidate and id 0 yields the undefined value. -/
theorem mcC1_witness :
    resolveOutcome [⟨"alpha", "a", 1⟩, ⟨"beta", "b", 2⟩] ⟨"req", "", 2⟩ =
      ResolveOutcome.candidate ⟨"beta", "b", 2⟩ ∧
    resolveOutcome [⟨"alpha", "a", 1⟩, ⟨"beta", "b", 2⟩] ⟨"req2", "", 0⟩ =
      ResolveOutcome.undefinedValue := by
  constructor
  · have h := (mcC1 [⟨"alpha", "a", 1⟩, ⟨"beta", "b", 2⟩] ⟨"req", "", 2⟩).1
      (by decide) (by decide)
    exact h.trans (by decide)
  · exact (mcC1 [⟨"alpha", "a", 1⟩, ⟨"beta", "b", 2⟩] ⟨"req2", "", 0⟩).2.2 (Or.inl rfl)

/-- C1 counterexample: at the concrete one-element list, resolving id 0
(and id N + 1 = 2) returns the undefined value of an out-of-bounds read,
not the not-found failure that the claim states (which the spec-modelled
resolver produces). -/
theorem mcC1_counterexample :
    resolveOutcome [⟨"alpha", "a", 1⟩] ⟨"req", "", 0⟩ = ResolveOutcome.undefinedValue ∧
    resolveOutcome [⟨"alpha", "a", 1⟩] ⟨"req", "", 0⟩ ≠ ResolveOutcome.notFoundError ∧
    resolveOutcome [⟨"alpha", "a", 1⟩] ⟨"req", "", 2⟩ = ResolveOutcome.undefinedValue ∧
    specResolve [⟨"alpha", "a", 1⟩] 0 = ResolveOutcome.notFoundError := by
  decide

/-- C2: the derived working directory is the project root itself when the
root's final path segment is 'shaders', and the root with a 'shaders'
segment joined onto it otherwise. -/
theorem mcC2 (env : HostEnv) :
    (finalSegment env.rootPath = some ("shaders") → (mkConfig env).workDir = env.rootPath) ∧
    (finalSegment env.rootPath ≠ some ("shaders") →
      (mkConfig env).workDir = pathJoin env.rootPath ("shaders")) := by
  constructor
  · intro h
    have hb : basename env.rootPath = "shaders" := (finalSegment_eq_shaders_iff _).mp h
    simp [mkConfig, hb]
  · intro h
    have hb : ¬basename env.rootPath = "shaders" :=
      fun hx => h ((finalSegment_eq_shaders_iff _).mpr hx)
    simp [mkConfig, hb]

/-- Witness for C2: a root already ending in 'shaders' is kept, any other
root gets a 'shaders' segment joined on. -/
theorem mcC2_witness :
    (mkConfig envC2a).workDir = "/proj/shaders" ∧
    (mkConfig envC2b).workDir = pathJoin ("/proj") ("shaders") :=
  ⟨(mcC2 envC2a).1 (by decide), (mcC2 envC2b).2 (by decide)⟩

/-- C3 counterexample: two constructions differing only in the platform
flag (Windows versus Linux) store the same output-matching pattern, so
the pattern is not selected by platform. -/
theorem mcC3_counterexample :
    (mkConfig envC3win).isWin = true ∧ (mkConfig envC3linux).isWin = false ∧
    (mkConfig envC3win).outputMatch = (mkConfig envC3linux).outputMatch := by
  decide

/-- C3 (amended): the constructor computes the platform flag, but stores
the single fixed pattern 'regLinuxOutput' as the output-matching pattern
on every platform. -/
theorem mcC3 (env : HostEnv) :
    (mkConfig env).outputMatch = regLinuxOutput ∧
    (mkConfig env).isWin = (env.platform == "win32") :=
  ⟨rfl, rfl⟩

/-- C4: on a change affecting the 'mcglsl' namespace the Config value is
replaced by a complete fresh construction; the consumer observes either
the old value or the whole new one (never a mixture), and the new value
retains nothing of the old fields. -/
theorem mcC4 (cfg : Config) (e : ConfigurationChangeEvent) (env : HostEnv) :
    (Config.onChange cfg e env = cfg ∨ Config.onChange cfg e env = mkConfig env) ∧
    (e.affects ("mcglsl") = true → Config.onChange cfg e env = mkConfig env) ∧
    (e.affects ("mcglsl") = true →
      ∀ cfg2 : Config, Config.onChange cfg2 e env = Config.onChange cfg e env) := by
  by_cases h : e.affects ("mcglsl") = true
  · refine ⟨Or.inr ?_, fun _ => ?_, fun _ cfg2 => ?_⟩ <;> simp [Config.onChange, h]
  · have hf : e.affects ("mcglsl") = false := by simpa using h
    exact ⟨Or.inl (by simp [Config.onChange, hf]), fun hx => absurd hx h,
      fun hx => absurd hx h⟩

/-- Witness for C4: with a concrete affecting event, the result is the
fresh construction from the new host state, independently of the old
Config value. -/
theorem mcC4_witness :
    Config.onChange (mkConfig envC4a) evC4 envC4b = mkConfig envC4b ∧
    Config.onChange (mkConfig envC4c) evC4 envC4b =
      Config.onChange (mkConfig envC4a) evC4 envC4b :=
  ⟨(mcC4 (mkConfig envC4a) evC4 envC4b).2.1 (by decide),
    (mcC4 (mkConfig envC4a) evC4 envC4b).2.2 (by decide) (mkConfig envC4c)⟩

/-- C5: a configuration change that does not affect the 'mcglsl' namespace
leaves the Config value, hence every one of its fields, unchanged. -/
theorem mcC5 (cfg : Config) (e : ConfigurationChangeEvent) (env : HostEnv)
    (h : e.affects ("mcglsl") = false) : Config.onChange cfg e env = cfg := by
  simp [Config.onChange, h]

/-- Witness for C5: a concrete event affecting nothing leaves a concrete
Config unchanged. -/
theorem mcC5_witness : Config.onChange (mkConfig envC5) evC5 envC5 = mkConfig envC5 :=
  mcC5 (mkConfig envC5) evC5 envC5 rfl

/-- C6: under well-formed host paths (clean absolute temp root, plain
workspace name), the staging directory is the OS temp root joined with
the workspace name joined with the fixed segment 'shaders', concretely
the concatenation 'tmpRoot/workspaceName/shaders'. -/
theorem mcC6 (env : HostEnv) (hroot : CleanAbs env.tmpRoot)
    (hname : PlainName env.workspaceName) :
    (mkConfig env).tmpdir = pathJoin (pathJoin env.tmpRoot env.workspaceName) ("shaders") ∧
    (mkConfig env).tmpdir = env.tmpRoot ++ "/" ++ env.workspaceName ++ "/shaders" := by
  obtain ⟨segs, hne, hpl, hdata⟩ := hroot
  have hw : PlainSegL env.workspaceName.data := hname
  have hsh : PlainSegL ("shaders".data) := by decide
  have htne : env.tmpRoot.data ≠ [] := by rw [hdata]; simp
  have hwne : env.workspaceName.data ≠ [] := hw.1
  have hshne : ("shaders".data) ≠ [] := by decide
  have hall1 : ∀ s ∈ segs ++ [env.workspaceName.data], PlainSegL s := by
    intro s hs
    rcases List.mem_append.mp hs with h' | h'
    · exact hpl s h'
    · exact (by simpa using h' : s = env.workspaceName.data) ▸ hw
  have hall2 : ∀ s ∈ segs ++ [env.workspaceName.data, "shaders".data], PlainSegL s := by
    intro s hs
    rcases List.mem_append.mp hs with h' | h'
    · exact hpl s h'
    · rcases (by simpa using h' : s = env.workspaceName.data ∨ s = "shaders".data) with
        h2 | h2
      · exact h2 ▸ hw
      · exact h2 ▸ hsh
  have hfilter : (([env.tmpRoot.data, env.workspaceName.data, "shaders".data] :
      List (List Char)).filter (fun p => !p.isEmpty)) =
      [env.tmpRoot.data, env.workspaceName.data, "shaders".data] := by
    simp [List.filter, not_isEmpty_of_ne_nil htne, not_isEmpty_of_ne_nil hwne,
      not_isEmpty_of_ne_nil hshne]
  have hJ : joinSegs (segs ++ [env.workspaceName.data, "shaders".data]) =
      joinSegs segs ++ '/' :: (env.workspaceName.data ++ '/' :: "shaders".data) := by
    rw [joinSegs_append segs [env.workspaceName.data, "shaders".data] hne (by simp)]
    rfl
  have hcore : joinSegs [env.tmpRoot.data, env.workspaceName.data, "shaders".data] =
      '/' :: joinSegs (segs ++ [env.workspaceName.data, "shaders".data]) := by
    rw [hdata, hJ]
    rfl
  have htd : pathJoinListL [env.tmpRoot.data, env.workspaceName.data, "shaders".data] =
      '/' :: joinSegs (segs ++ [env.workspaceName.data, "shaders".data]) := by
    simp only [pathJoinListL]
    rw [hfilter, if_neg (by simp), hcore]
    exact normalizeL_cleanAbs _ (by simp [hne]) hall2
  have ht0 : (mkConfig env).tmpdir =
      String.mk (pathJoinListL [env.tmpRoot.data, env.workspaceName.data, "shaders".data]) :=
    rfl
  constructor
  · have e1 : pathJoin env.tmpRoot env.workspaceName =
        String.mk ('/' :: joinSegs (segs ++ [env.workspaceName.data])) := by
      unfold pathJoin
      rw [hdata, pathJoinL_cleanAbs segs hne hpl env.workspaceName.data hw]
    have e2 : pathJoin (pathJoin env.tmpRoot env.workspaceName) ("shaders") =
        String.mk ('/' :: joinSegs ((segs ++ [env.workspaceName.data]) ++ ["shaders".data])) := by
      rw [e1]
      unfold pathJoin
      rw [show (String.mk ('/' :: joinSegs (segs ++ [env.workspaceName.data]))).data =
          '/' :: joinSegs (segs ++ [env.workspaceName.data]) from rfl,
        pathJoinL_cleanAbs (segs ++ [env.workspaceName.data]) (by simp [hne]) hall1
          ("shaders".data) hsh]
    rw [ht0, htd, e2, List.append_assoc]
    rfl
  · apply string_eq_of_data
    have hr : (env.tmpRoot ++ "/" ++ env.workspaceName ++ "/shaders").data =
        env.tmpRoot.data ++ ['/'] ++ env.workspaceName.data ++ ('/' :: "shaders".data) := rfl
    rw [show ((mkConfig env).tmpdir).data =
        pathJoinListL [env.tmpRoot.data, env.workspaceName.data, "shaders".data] from rfl,
      htd, hJ, hr, hdata]
    simp [List.append_assoc]

/-- Witness for C6: with temp root '/tmp' and workspace name 'pack' the
staging directory is '/tmp/pack/shaders'. -/
theorem mcC6_witness :
    (mkConfig envC6).tmpdir = pathJoin (pathJoin ("/tmp") ("pack")) ("shaders") ∧
    (mkConfig envC6).tmpdir = "/tmp/pack/shaders" := by
  have h := mcC6 envC6 ⟨[['t', 'm', 'p']], by decide, by decide, by decide⟩ (by decide)
  refine ⟨h.1, ?_⟩
  rw [h.2]
  decide

/-- C7: on a configuration-change notification the server first invokes
'Config.onChange' with the incoming change and then invokes
'Linter.preprocess' once for every currently open document. -/
theorem mcC7 (completions : List CompletionItem) (st : ServerState)
    (change : ConfigurationChangeEvent) (env : HostEnv) :
    (dispatch completions st (ServerMsg.didChangeConfiguration change env)).2 =
      Action.configOnChange change :: st.openDocs.map Action.preprocess ∧
    List.countP isPreprocess
        (dispatch completions st (ServerMsg.didChangeConfiguration change env)).2 =
      st.openDocs.length := by
  refine ⟨rfl, ?_⟩
  show List.countP isPreprocess
      (Action.configOnChange change :: st.openDocs.map Action.preprocess) =
    st.openDocs.length
  rw [List.countP_cons]
  simp [isPreprocess, countP_isPreprocess_map]

/-- C8: a document content-change event triggers exactly one
'Linter.preprocess' invocation, applied to the changed document. -/
theorem mcC8 (completions : List CompletionItem) (st : ServerState) (doc : TextDocument) :
    (dispatch completions st (ServerMsg.didChangeContent doc)).2 = [Action.preprocess doc] ∧
    List.countP isPreprocess (dispatch completions st (ServerMsg.didChangeContent doc)).2 = 1 :=
  ⟨rfl, rfl⟩

/-- C9: the initialize request always answers with full-document text
synchronization and completion support with resolve enabled. -/
theorem mcC9 (completions : List CompletionItem) (st : ServerState)
    (params : InitializeParams) :
    (onInitialize params).capabilities.textDocumentSync = TextDocumentSyncKind.full ∧
    (onInitialize params).capabilities.completionProvider.resolveProvider = true ∧
    (dispatch completions st (ServerMsg.initializeMsg params)).2 =
      [Action.respondInit (onInitialize params)] :=
  ⟨rfl, rfl, rfl⟩

/-- C10: the resolve response depends only on the submitted item's 'data'
field — equal 'data' yields the same response, whatever the other item
fields and whatever server state prior requests have produced. -/
theorem mcC10 (completions : List CompletionItem) (st1 st2 : ServerState)
    (item1 item2 : CompletionItem) (h : item1.data = item2.data) :
    (dispatch completions st1 (ServerMsg.completionResolve item1)).2 =
      (dispatch completions st2 (ServerMsg.completionResolve item2)).2 := by
  simp [dispatch, onCompletionResolve, h]

/-- Witness for C10: two resolve requests with equal 'data' but different
labels, details and server states produce the same response. -/
theorem mcC10_witness :
    (dispatch [⟨"alpha", "a", 7⟩] stC10a (ServerMsg.completionResolve ⟨"one", "d1", 1⟩)).2 =
      (dispatch [⟨"alpha", "a", 7⟩] stC10b (ServerMsg.completionResolve ⟨"two", "d2", 1⟩)).2 :=
  mcC10 [⟨"alpha", "a", 7⟩] stC10a stC10b ⟨"one", "d1", 1⟩ ⟨"two", "d2", 1⟩ rfl

end Mcshader
